import Mathlib

/-!
# Verification of the sbsigntools PE/COFF image engine (src/image.c)

Shallow embedding of the PE/COFF parser, checksum-region builder, PE
checksum engine, certificate-table editor and image writer of
`src/image.c`, together with proofs about the claims C1-C10.

Modelling conventions:
* A byte buffer is a `List Nat` whose elements are byte values (< 256 for
  well-formed inputs; theorems that depend on byte-ness carry it as a
  hypothesis or use concrete byte lists).
* All multi-byte loads are little-endian, mirroring `__pehdr_u32` /
  `__pehdr_u16` and the little-endian host the tool targets (the source
  compares on-disk fields against host-order constants, see spec §9).
* C `uint16_t`/`uint32_t` arithmetic is modelled with explicit `% 2^16` /
  `% 2^32`.  The `int`/`size_t` size bookkeeping of the region builder is
  modelled with exact `Int`/`Nat` arithmetic; this coincides with the C
  program whenever intermediate size computations stay below 2^31
  (i.e. for files below 2 GiB), which is the regime of every claim.
* Struct layouts (DOS header, COFF file header, optional header, section
  headers, `struct data_dir_entry`, `struct cert_table_header`) follow the
  Microsoft PE/COFF layout that the included binutils-style headers encode:
  DOS header 64 bytes with `e_lfanew` at offset 60; PE header 24 bytes
  (`"PE\x7b0\x7d\x7b0\x7d"` signature, machine at +4, section count at +6,
  optional-header size at +20); optional header with `FileAlignment` at
  +36, `SizeOfHeaders` at +60, `CheckSum` at +64, data directories at +96
  (PE32) or +112 (PE32+); 40-byte section headers with `s_size` at +16 and
  `s_scnptr` at +20; certificate-table header `\x7bu32 size; u16 revision;
  u16 type\x7d`.
-/

/-- Read one byte (out-of-range reads yield 0; in-scope theorems keep all
modelled reads in bounds or note the divergence). -/
def readU8 (buf : List Nat) (off : Nat) : Nat := buf.getD off 0

/-- Little-endian 16-bit load, as `__pehdr_u16`. -/
def readU16 (buf : List Nat) (off : Nat) : Nat :=
  readU8 buf off + 256 * readU8 buf (off + 1)

/-- Little-endian 32-bit load, as `__pehdr_u32`. -/
def readU32 (buf : List Nat) (off : Nat) : Nat :=
  readU16 buf off + 65536 * readU16 buf (off + 2)

/-- The sub-buffer of length `len` starting at `off`. -/
def subBytes (buf : List Nat) (off len : Nat) : List Nat := (buf.drop off).take len

/-- Little-endian bytes of a 16-bit value. -/
def le16 (v : Nat) : List Nat := [v % 256, v / 256 % 256]

/-- Little-endian bytes of a 32-bit value. -/
def le32 (v : Nat) : List Nat :=
  [v % 256, v / 256 % 256, v / 65536 % 256, v / 16777216 % 256]

/-- Store a 32-bit value little-endian at `off` (as `cpu_to_le32` plus the
in-place struct-field stores of the source). -/
def writeU32 (buf : List Nat) (off v : Nat) : List Nat :=
  (((buf.set off (v % 256)).set (off + 1) (v / 256 % 256)).set
      (off + 2) (v / 65536 % 256)).set (off + 3) (v / 16777216 % 256)

/-- `align_up(x, 8)`: C computes `(x + 7) & ~7`, i.e. the two's-complement
floor of `x + 7` to a multiple of 8; with Lean's Euclidean `%` this is
`x + 7 - (x + 7) % 8`. -/
def alignUp8 (x : Int) : Int := x + 7 - (x + 7) % 8

/-- `align_up(n, 8)` on non-negative values (used by the certificate-table
editor, whose sizes are non-negative). -/
def align8N (n : Nat) : Nat := n + 7 - (n + 7) % 8

/-- The parsed header fields extracted by `image_pecoff_parse` (stored in
`struct image` as pointers/counters; modelled as byte offsets). -/
structure PFields where
  checksumOff : Nat
  dataDirSigOff : Nat
  headerSize : Nat
  fileAlignment : Nat
  scnhdrOff : Nat
  sections : Nat
  certTableAddr : Nat
  certTableSize : Nat
deriving Repr, DecidableEq

/-- The machine-specific dispatch of `image_pecoff_parse` to
`image_pecoff_parse_32` / `image_pecoff_parse_64`: PE32+ machines
(AMD64 0x8664, AARCH64 0xaa64) require optional-header magic bytes
0x0b 0x02 and have 112 fixed optional-header bytes before the data
directory; PE32 machines (I386 0x14c, THUMB 0x1c2) require 0x0b 0x01 and
have 96; any other machine or magic fails. -/
def parse_machine (buf : List Nat) (opt magic : Nat) : Option Nat :=
  if magic = 0x8664 ∨ magic = 0xaa64 then
    if readU8 buf opt = 0x0b ∧ readU8 buf (opt + 1) = 0x02 then some 112 else none
  else if magic = 0x14c ∨ magic = 0x1c2 then
    if readU8 buf opt = 0x0b ∧ readU8 buf (opt + 1) = 0x01 then some 96 else none
  else none

/-- Header validation and field extraction of `image_pecoff_parse`
(everything except the signature-table shadow copy, which `sigbufOf`
models; the source computes it mid-function, which does not affect any
extracted field). -/
def parseFields (buf : List Nat) : Option PFields :=
  let size := buf.length
  if size < 64 then none
  else if readU8 buf 0 = 0x4d ∧ readU8 buf 1 = 0x5a then
    let addr := readU32 buf 60
    if addr ≥ size then none
    else if addr + 24 > size then none
    else if readU8 buf addr = 0x50 ∧ readU8 buf (addr + 1) = 0x45 ∧
        readU8 buf (addr + 2) = 0 ∧ readU8 buf (addr + 3) = 0 then
      let magic := readU16 buf (addr + 4)
      let opt := addr + 24
      match parse_machine buf opt magic with
      | none => none
      | some minSize =>
        let opthdrSize := readU16 buf (addr + 20)
        if opthdrSize < minSize + 40 then none
        else if size < 64 + 24 + opthdrSize then none
        else
          let dirOff := opt + minSize + 32
          some {
            checksumOff := opt + 64
            dataDirSigOff := dirOff
            headerSize := readU32 buf (opt + 60)
            fileAlignment := readU32 buf (opt + 36)
            scnhdrOff := opt + opthdrSize
            sections := readU16 buf (addr + 6)
            certTableAddr := readU32 buf dirOff
            certTableSize := readU32 buf (dirOff + 4) }
    else none
  else none

/-- The signature-table shadow copy made by `image_pecoff_parse`: when the
security data directory has a nonzero size and the certificate-table header
at its file offset has revision 0x0200, type 0x0002 and a size field below
the file length, `sigbuf` is populated with directory-size bytes from the
certificate table. -/
def sigbufOf (buf : List Nat) (f : PFields) : Option (List Nat) :=
  if f.certTableSize ≠ 0 ∧ readU16 buf (f.certTableAddr + 4) = 0x200 ∧
      readU16 buf (f.certTableAddr + 6) = 2 ∧ readU32 buf f.certTableAddr < buf.length
  then some (subBytes buf f.certTableAddr f.certTableSize)
  else none

/-- `image_pecoff_parse`: header fields plus signature shadow copy. -/
def image_pecoff_parse (buf : List Nat) : Option (PFields × Option (List Nat)) :=
  match parseFields buf with
  | none => none
  | some f => some (f, sigbufOf buf f)

/-- A checksum region: byte offset into the image buffer and length
(`struct region`; `size` is a C `int`, modelled exactly). -/
structure Region where
  off : Nat
  size : Int
deriving Repr, DecidableEq

/-- The three fixed regions built before the section loop:
begin-to-checksum, checksum-to-security-directory-entry, and
past-security-entry-to-end-of-headers. -/
def fixedRegions (f : PFields) : List Region :=
  [ ⟨0, (f.checksumOff : Int)⟩,
    ⟨f.checksumOff + 4, (f.dataDirSigOff : Int) - (f.checksumOff + 4)⟩,
    ⟨f.dataDirSigOff + 8, (f.headerSize : Int) - (f.dataDirSigOff + 8)⟩ ]

/-- One iteration of the section loop of `image_find_regions`: skip
zero-raw-size sections, otherwise append `[s_scnptr, s_scnptr + s_size)`
and add the size to the running byte count. -/
def sectionStep (buf : List Nat) (f : PFields) (acc : List Region × Int) (i : Nat) :
    List Region × Int :=
  let fsize := readU32 buf (f.scnhdrOff + 40 * i + 16)
  if fsize = 0 then acc
  else (acc.1 ++ [⟨readU32 buf (f.scnhdrOff + 40 * i + 20), (fsize : Int)⟩],
        acc.2 + fsize)

/-- The region list and running byte count after the section loop (the byte
count starts at 12 plus the fixed regions' sizes: the loop body has already
counted the 4-byte checksum field and the 8-byte directory entry). -/
def buildRegions (buf : List Nat) (f : PFields) : List Region × Int :=
  (List.range f.sections).foldl (sectionStep buf f)
    (fixedRegions f, 12 + ((fixedRegions f).map Region.size).sum)

/-- Per-section regions as the spec describes them: one region per section
header with nonzero raw size. -/
def sectionRegions (buf : List Nat) (f : PFields) : List Region :=
  (List.range f.sections).filterMap fun i =>
    if readU32 buf (f.scnhdrOff + 40 * i + 16) = 0 then none
    else some ⟨readU32 buf (f.scnhdrOff + 40 * i + 20),
      (readU32 buf (f.scnhdrOff + 40 * i + 16) : Int)⟩

/-- The comparison used by `qsort` via `cmp_regions`: order by starting
offset. -/
def regionLE (a b : Region) : Prop := a.off ≤ b.off

instance : DecidableRel regionLE := fun a b => inferInstanceAs (Decidable (a.off ≤ b.off))

instance : IsTotal Region regionLE := ⟨fun a b => Nat.le_total a.off b.off⟩

instance : IsTrans Region regionLE := ⟨fun _ _ _ => Nat.le_trans⟩

/-- The region list right after `qsort` (modelled with a stable insertion
sort; `qsort` is unspecified on ties, and every claim below either holds
for any offset-sorted permutation or is settled on tie-free inputs). -/
def sortedRegions (buf : List Nat) (f : PFields) : List Region :=
  List.insertionSort regionLE (buildRegions buf f).1

/-- `image_find_regions`: fixed regions, section regions, sort, optional
trailing "endjunk" region, and the 8-byte-aligned `data_size` taken from
the last entry of the resulting array. -/
def image_find_regions (buf : List Nat) (f : PFields) : List Region × Nat :=
  let br := buildRegions buf f
  let sorted := List.insertionSort regionLE br.1
  let size := buf.length
  let regs :=
    if br.2 + (f.certTableSize : Int) < (size : Int) then
      sorted ++ [⟨br.2.toNat, (size : Int) - br.2 - (f.certTableSize : Int)⟩]
    else sorted
  let last := regs.getLastD ⟨0, 0⟩
  (regs, (alignUp8 ((last.off : Int) + last.size)).toNat)

/-- The in-memory image: buffer, parsed fields, signature buffer, checksum
regions and `data_size` (`struct image`, with parsed pointers as offsets). -/
structure Image where
  buf : List Nat
  fields : PFields
  sigbuf : Option (List Nat)
  checksumRegions : List Region
  dataSize : Nat
deriving Repr, DecidableEq

instance : Inhabited Image := ⟨⟨[], ⟨0, 0, 0, 0, 0, 0, 0, 0⟩, none, [], 0⟩⟩

/-- One parse-plus-region-scan pass of `image_load`. -/
def loadOnce (buf : List Nat) : Option Image :=
  match parseFields buf with
  | none => none
  | some f =>
    let fr := image_find_regions buf f
    some { buf := buf, fields := f, sigbuf := sigbufOf buf f,
           checksumRegions := fr.1, dataSize := fr.2 }

/-- `image_load`: parse; if the computed `data_size` overruns the buffer,
grow the buffer with zero padding and re-parse.  The source loops; the
model unrolls one re-parse, and theorem `c8_pad_reparse_terminates` shows
the re-parse always fits, so the loop body runs at most twice. -/
def image_load (buf : List Nat) : Option Image :=
  match loadOnce buf with
  | none => none
  | some img =>
    if img.dataSize ≤ buf.length then some img
    else
      let buf2 := buf ++ List.replicate (img.dataSize - buf.length) 0
      match loadOnce buf2 with
      | none => none
      | some img2 => if img2.dataSize ≤ buf2.length then some img2 else none

/-- Does one load pass produce a `data_size` that fits the buffer? -/
def loadOnceFits (buf : List Nat) : Bool :=
  match loadOnce buf with
  | none => false
  | some img => decide (img.dataSize ≤ buf.length)

/-- One fold step of the PE checksum (`csum_update_fold`): 16-bit
one's-complement-style sum with the carry folded back, truncated to the
`uint16_t` return type. -/
def csum_update_fold (c x : Nat) : Nat :=
  ((c + x) / 65536 + (c + x) % 65536) % 65536

/-- `csum_bytes`: fold consecutive 16-bit little-endian words, then a
trailing odd byte as the low byte of a 16-bit value. -/
def csum_bytes : Nat → List Nat → Nat
  | c, b0 :: b1 :: rest => csum_bytes (csum_update_fold c (b0 + 256 * b1)) rest
  | c, [b0] => csum_update_fold c b0
  | c, [] => c

/-- Spec-side view of the checksum input (§4.3): the buffer as a list of
16-bit little-endian words, with an odd trailing byte as its own value. -/
def toWords16 : List Nat → List Nat
  | b0 :: b1 :: rest => (b0 + 256 * b1) :: toWords16 rest
  | [b0] => [b0]
  | [] => []

/-- Spec-side fold sum (§4.3): fold `csum_update_fold` over the 16-bit
word view. -/
def specFoldSum (c : Nat) (l : List Nat) : Nat :=
  (toWords16 l).foldl csum_update_fold c

/-- `is_signed` as the source computes it: `image->sigsize && image->sigbuf`. -/
def isSigned (img : Image) : Bool :=
  match img.sigbuf with
  | none => false
  | some sb => decide (sb.length ≠ 0)

/-- `image->sigsize` (0 when `sigbuf` is NULL). -/
def sigLen (img : Image) : Nat := (img.sigbuf.getD []).length

/-- The 32-bit checksum value computed by `image_pecoff_update_checksum`:
fold over `[0, off(CheckSum))`, then `[off(CheckSum)+4, data_size)`, then
the signature bytes when writing a signature, plus `data_size` (plus
`sigsize` when signed), as `uint32_t`. -/
def checksumValue (img : Image) : Nat :=
  let c1 := csum_bytes 0 (subBytes img.buf 0 img.fields.checksumOff)
  let c2 := csum_bytes c1 (subBytes img.buf (img.fields.checksumOff + 4)
              (img.dataSize - (img.fields.checksumOff + 4)))
  let c3 := if isSigned img then csum_bytes c2 (img.sigbuf.getD []) else c2
  (c3 + img.dataSize + (if isSigned img then sigLen img else 0)) % 4294967296

/-- `image_pecoff_update_checksum`: store the recomputed checksum
little-endian into the checksum field. -/
def image_pecoff_update_checksum (img : Image) : Image :=
  { img with buf := writeU32 img.buf img.fields.checksumOff (checksumValue img) }

/-- `image_write`: set data directory entry 4 to `(data_size, sigsize)`
when signed and `(0, 0)` otherwise, refresh the checksum, then emit
`bytes[0..data_size]` followed by the signature bytes when signed. -/
def image_write (img : Image) : Image × List Nat :=
  let s := isSigned img
  let buf1 :=
    if s then
      writeU32 (writeU32 img.buf img.fields.dataDirSigOff (img.dataSize % 4294967296))
        (img.fields.dataDirSigOff + 4) (sigLen img % 4294967296)
    else
      writeU32 (writeU32 img.buf img.fields.dataDirSigOff 0)
        (img.fields.dataDirSigOff + 4) 0
  let img1 := image_pecoff_update_checksum { img with buf := buf1 }
  (img1, img1.buf.take img.dataSize ++ (if s then img.sigbuf.getD [] else []))

/-- The WIN_CERTIFICATE entry `image_add_signature` builds: 8-byte header
(`size = 8 + len(sig)` as `u32`, revision 0x0200, type 0x0002), the
payload, then zero padding to a multiple of 8. -/
def entryOf (s : List Nat) : List Nat :=
  le32 ((s.length + 8) % 4294967296) ++ le16 0x200 ++ le16 2 ++ s ++
    List.replicate (align8N (s.length + 8) - (s.length + 8)) 0

/-- `image_add_signature`: append the new entry to `sigbuf` (creating it
for an unsigned image); always succeeds. -/
def image_add_signature (img : Image) (s : List Nat) : Image :=
  { img with sigbuf := some (img.sigbuf.getD [] ++ entryOf s) }

/-- The entry-walking loop of `image_get_signature`: advance
`align_up(header->size, 8)` bytes, `signum` times. -/
def sigWalkAddr (sb : List Nat) : Nat → Nat
  | 0 => 0
  | n + 1 => sigWalkAddr sb n + align8N (readU32 sb (sigWalkAddr sb n))

/-- `image_get_signature`: walk to entry `signum`; fail if the walk ran off
the table, else return the payload (entry minus 8-byte header) and its
size. -/
def image_get_signature (img : Image) (signum : Nat) : Option (List Nat × Nat) :=
  match img.sigbuf with
  | none => none
  | some sb =>
    let a := sigWalkAddr sb signum
    if a ≥ sb.length then none
    else some (subBytes sb (a + 8) (readU32 sb a - 8), readU32 sb a - 8)

/-- `image_remove_signature`: locate the entry as `image_get_signature`
does (failure leaves the image untouched and propagates -1); clear `sigbuf`
when removing the only entry, truncate when removing the last one, shift
the tail left otherwise. -/
def image_remove_signature (img : Image) (signum : Nat) : Int × Image :=
  match img.sigbuf with
  | none => (-1, img)
  | some sb =>
    let a := sigWalkAddr sb signum
    if a ≥ sb.length then (-1, img)
    else
      let aligned := align8N (readU32 sb a)
      if a + aligned ≥ sb.length then
        if a = 0 then (0, { img with sigbuf := none })
        else (0, { img with sigbuf := some (sb.take (sb.length - aligned)) })
      else (0, { img with sigbuf := some (sb.take a ++ sb.drop (a + aligned)) })

/-- `k` successive `image_add_signature` calls. -/
def addMany (img : Image) (sigs : List (List Nat)) : Image :=
  sigs.foldl image_add_signature img

/-- A certificate-table editing operation. -/
inductive SigOp where
  | add (s : List Nat)
  | remove (n : Nat)

/-- Apply one editing operation (a failed remove keeps the state). -/
def applySigOp (img : Image) (op : SigOp) : Image :=
  match op with
  | .add s => image_add_signature img s
  | .remove n => (image_remove_signature img n).2

/-- Apply a sequence of editing operations. -/
def applySigOps (img : Image) (ops : List SigOp) : Image :=
  ops.foldl applySigOp img

/-- Overwrite bytes of `buf` starting at `off` with `d`. -/
def patchBytes : List Nat → Nat → List Nat → List Nat
  | buf, _, [] => buf
  | buf, off, b :: rest => patchBytes (buf.set off b) (off + 1) rest

/-- A concrete PE32 (i386) test file: DOS header at 0 with `e_lfanew = 64`,
PE header at 64, 136-byte optional header at 88 (so the section table
starts at 224, the checksum field at 152, data directory entry 4 at 216),
`SizeOfHeaders = hdrSize`, security directory `(dirAddr, dirSize)`, one
40-byte section header per `(s_scnptr, s_size)` pair, plus arbitrary extra
byte patches. -/
def mkPE32 (fileLen hdrSize dirAddr dirSize : Nat) (secs : List (Nat × Nat))
    (extra : List (Nat × List Nat)) : List Nat :=
  let b0 := List.replicate fileLen 0
  let b1 := patchBytes b0 0 [0x4d, 0x5a]
  let b2 := patchBytes b1 60 (le32 64)
  let b3 := patchBytes b2 64 [0x50, 0x45, 0, 0]
  let b4 := patchBytes b3 68 (le16 0x14c)
  let b5 := patchBytes b4 70 (le16 secs.length)
  let b6 := patchBytes b5 84 (le16 136)
  let b7 := patchBytes b6 88 [0x0b, 0x01]
  let b8 := patchBytes b7 148 (le32 hdrSize)
  let b9 := patchBytes b8 216 (le32 dirAddr)
  let b10 := patchBytes b9 220 (le32 dirSize)
  let b11 := (List.range secs.length).foldl (fun bb i =>
      patchBytes (patchBytes bb (224 + 40 * i + 16) (le32 (secs.getD i (0, 0)).2))
        (224 + 40 * i + 20) (le32 (secs.getD i (0, 0)).1)) b10
  extra.foldl (fun bb p => patchBytes bb p.1 p.2) b11

/-- The disjointness/strict-ordering property of claim C1: for all `i < j`,
`regions[i].offset + regions[i].size ≤ regions[j].offset`. -/
def regionsDisjointB : List Region → Bool
  | [] => true
  | r :: rest =>
    rest.all (fun q => decide ((r.off : Int) + r.size ≤ (q.off : Int))) &&
      regionsDisjointB rest

/-- Is byte `x` inside some region, the 4-byte checksum field, or the
8-byte security directory entry? -/
def coveredB (ck dir : Nat) (rs : List Region) (x : Nat) : Bool :=
  rs.any (fun r => decide ((r.off : Int) ≤ (x : Int) ∧ (x : Int) < (r.off : Int) + r.size)) ||
    (decide (ck ≤ x) && decide (x < ck + 4)) ||
    (decide (dir ≤ x) && decide (x < dir + 8))

/-- Do the regions plus the two skipped fields cover every byte below `m`? -/
def coversUpToB (ck dir : Nat) (rs : List Region) (m : Nat) : Bool :=
  (List.range m).all (coveredB ck dir rs)

/-- Does `image_get_signature i` return exactly the `i`-th added payload
(and its length) for every `i` below `k`? -/
def getAllOkB (img : Image) (sigs : List (List Nat)) : Bool :=
  (List.range sigs.length).all fun i =>
    image_get_signature img i == some (sigs.getD i [], (sigs.getD i []).length)

/-- The in-bounds condition for the certificate-table header read of
`image_pecoff_parse` (`cert_table = buf + addr` is dereferenced whenever
the directory size is nonzero). -/
def certHeaderReadInBoundsB (img : Image) : Bool :=
  img.fields.certTableSize == 0 ||
    decide (img.fields.certTableAddr + 8 ≤ img.buf.length)

/-- C1 counterexample input: accepted PE32 with a gap in the section table
(sections at `[0x200, 0x300)` and `[0x400, 0x500)`, `SizeOfHeaders =
0x200`, no certificate table, 0x500-byte file). -/
def cexC1 : List Nat := mkPE32 1280 512 0 0 [(512, 256), (1024, 256)] []

/-- C7 counterexample input: pre-signed PE32 whose security directory size
is 12 (not a multiple of 8), with a valid certificate-table header at 232. -/
def cexC7 : List Nat :=
  mkPE32 244 232 232 12 [] [(232, le32 10 ++ le16 0x200 ++ le16 2)]

/-- C8 witness input: a section `[0x200, 0x300)` that extends past the
0x258-byte file, so the first pass computes `data_size = 0x300 > len`. -/
def wC8 : List Nat := mkPE32 600 512 0 0 [(512, 256)] []

/-- C9 failing input: accepted PE32 whose security directory is
`(addr = 0x10000, size = 16)` with `addr` far beyond the 240-byte file:
parsing dereferences the certificate-table header out of bounds. -/
def cexC9 : List Nat := mkPE32 240 232 65536 16 [] []

/-- C10 witness input: pre-signed PE32, security directory `(232, 16)`,
valid certificate-table header (size field 10) at 232, 248-byte file. -/
def wC10 : List Nat :=
  mkPE32 248 232 232 16 [] [(232, le32 10 ++ le16 0x200 ++ le16 2)]

/-- C1 witness input: gap-free PE32 (single section starting exactly at
`SizeOfHeaders = 0x200`), 1024-byte file, no certificate table. -/
def wC1 : List Nat := mkPE32 1024 512 0 0 [(512, 256)] []

/-- C2/C3 witness input: PE32 with two sections declared out of file order. -/
def wC2 : List Nat := mkPE32 1024 512 0 0 [(768, 128), (512, 256)] []

/-- C7 witness input: unsigned PE32 that loads successfully. -/
def wC7 : List Nat := mkPE32 240 232 0 0 [] []

/-! ## Test fixtures and derived definitions used by the theorems -/

/-- Witness image for C3: signed 16-byte image, checksum field at 4. -/
def wImgC3 : Image :=
  { buf := [1, 2, 3, 4, 5, 6, 7, 8, 9, 10, 11, 12, 13, 14, 15, 16],
    fields := ⟨4, 0, 0, 0, 0, 0, 0, 0⟩,
    sigbuf := some [17, 18, 19], checksumRegions := [], dataSize := 16 }

/-- Witness image for C4: signed 20-byte image, checksum field at 0, data
directory entry 4 at 8. -/
def wImgC4 : Image :=
  { buf := List.replicate 20 9, fields := ⟨0, 8, 0, 0, 0, 0, 0, 0⟩,
    sigbuf := some [1, 2, 3, 4], checksumRegions := [], dataSize := 12 }

/-- The concatenated signature table after adding each payload in turn. -/
def entriesOf : List (List Nat) → List Nat
  | [] => []
  | s :: rest => entryOf s ++ entriesOf rest

/-- Witness image for C5/C6: an unsigned image. -/
def wImgSig : Image :=
  { buf := [77, 90, 0, 0], fields := ⟨0, 0, 0, 0, 0, 0, 0, 0⟩,
    sigbuf := none, checksumRegions := [], dataSize := 0 }

/-- The parsed fields of `wC2` (checksum field at 152, directory entry 4
at 216, 512 header bytes, section table at 224 with two sections). -/
def wC2f : PFields := ⟨152, 216, 512, 0, 224, 2, 0, 0⟩

/-- The parsed fields of `wC10` (security directory `(232, 16)`). -/
def wC10f : PFields := ⟨152, 216, 232, 0, 224, 0, 232, 16⟩

/-- The end of a region, `offset + size`. -/
def regionEnd (r : Region) : Int := (r.off : Int) + r.size

/-- Adjacency of two regions: the second begins exactly at the first's
end (the property whose failure triggers the gap warning in
`image_find_regions`). -/
def regionAdj (a b : Region) : Prop := regionEnd a = (b.off : Int)

instance : DecidableRel regionAdj :=
  fun a b => inferInstanceAs (Decidable (_ = _))

/-- The parsed fields of `wC1` (one section, header size 0x200). -/
def wC1f : PFields := ⟨152, 216, 512, 0, 224, 1, 0, 0⟩

/-! ## Basic lemmas about the byte primitives -/

theorem getD_append_zeros (l : List Nat) (n i : Nat) :
    (l ++ List.replicate n 0).getD i 0 = l.getD i 0 := by
  rcases Nat.lt_or_ge i l.length with h | h
  · exact List.getD_append _ _ _ _ h
  · rw [List.getD_append_right _ _ _ _ h, List.getD_eq_default _ _ h]
    simp [List.getD_eq_getElem?_getD]

theorem readU8_append_zeros (l : List Nat) (n i : Nat) :
    readU8 (l ++ List.replicate n 0) i = readU8 l i :=
  getD_append_zeros l n i

theorem readU16_append_zeros (l : List Nat) (n i : Nat) :
    readU16 (l ++ List.replicate n 0) i = readU16 l i := by
  unfold readU16
  rw [readU8_append_zeros, readU8_append_zeros]

theorem readU32_append_zeros (l : List Nat) (n i : Nat) :
    readU32 (l ++ List.replicate n 0) i = readU32 l i := by
  unfold readU32
  rw [readU16_append_zeros, readU16_append_zeros]

theorem getD_set_self (l : List Nat) (i v : Nat) (h : i < l.length) :
    (l.set i v).getD i 0 = v := by
  simp [List.getD_eq_getElem?_getD, List.getElem?_set_self, h]

theorem getD_set_ne (l : List Nat) (i j v : Nat) (h : i ≠ j) :
    (l.set i v).getD j 0 = l.getD j 0 := by
  simp [List.getD_eq_getElem?_getD, List.getElem?_set_ne h]

theorem readU8_writeU32_of_lt (l : List Nat) (off v j : Nat) (h : j < off) :
    readU8 (writeU32 l off v) j = readU8 l j := by
  unfold writeU32 readU8
  rw [getD_set_ne _ _ _ _ (by omega), getD_set_ne _ _ _ _ (by omega),
    getD_set_ne _ _ _ _ (by omega), getD_set_ne _ _ _ _ (by omega)]

theorem readU8_writeU32_of_ge (l : List Nat) (off v j : Nat) (h : off + 4 ≤ j) :
    readU8 (writeU32 l off v) j = readU8 l j := by
  unfold writeU32 readU8
  rw [getD_set_ne _ _ _ _ (by omega), getD_set_ne _ _ _ _ (by omega),
    getD_set_ne _ _ _ _ (by omega), getD_set_ne _ _ _ _ (by omega)]

theorem readU32_writeU32_of_lt (l : List Nat) (off v j : Nat) (h : j + 4 ≤ off) :
    readU32 (writeU32 l off v) j = readU32 l j := by
  unfold readU32 readU16
  rw [readU8_writeU32_of_lt _ _ _ _ (by omega), readU8_writeU32_of_lt _ _ _ _ (by omega),
    readU8_writeU32_of_lt _ _ _ _ (by omega), readU8_writeU32_of_lt _ _ _ _ (by omega)]

theorem readU32_writeU32_of_ge (l : List Nat) (off v j : Nat) (h : off + 4 ≤ j) :
    readU32 (writeU32 l off v) j = readU32 l j := by
  unfold readU32 readU16
  rw [readU8_writeU32_of_ge _ _ _ _ (by omega), readU8_writeU32_of_ge _ _ _ _ (by omega),
    readU8_writeU32_of_ge _ _ _ _ (by omega), readU8_writeU32_of_ge _ _ _ _ (by omega)]

theorem length_writeU32 (l : List Nat) (off v : Nat) :
    (writeU32 l off v).length = l.length := by
  unfold writeU32
  simp

theorem readU32_writeU32_self (l : List Nat) (off v : Nat) (h : off + 4 ≤ l.length)
    (hv : v < 4294967296) : readU32 (writeU32 l off v) off = v := by
  have e0 : readU8 (writeU32 l off v) off = v % 256 := by
    unfold writeU32 readU8
    rw [getD_set_ne _ _ _ _ (by omega), getD_set_ne _ _ _ _ (by omega),
      getD_set_ne _ _ _ _ (by omega), getD_set_self _ _ _ (by omega)]
  have e1 : readU8 (writeU32 l off v) (off + 1) = v / 256 % 256 := by
    unfold writeU32 readU8
    rw [getD_set_ne _ _ _ _ (by omega), getD_set_ne _ _ _ _ (by omega),
      getD_set_self _ _ _ (by simp only [List.length_set]; omega)]
  have e2 : readU8 (writeU32 l off v) (off + 2) = v / 65536 % 256 := by
    unfold writeU32 readU8
    rw [getD_set_ne _ _ _ _ (by omega),
      getD_set_self _ _ _ (by simp only [List.length_set]; omega)]
  have e3 : readU8 (writeU32 l off v) (off + 3) = v / 16777216 % 256 := by
    unfold writeU32 readU8
    rw [getD_set_self _ _ _ (by simp only [List.length_set]; omega)]
  have hidx : off + 2 + 1 = off + 3 := rfl
  unfold readU32 readU16
  rw [hidx, e0, e1, e2, e3]
  omega

theorem readU32_le32_append (v : Nat) (rest : List Nat) (hv : v < 4294967296) :
    readU32 (le32 v ++ rest) 0 = v := by
  unfold le32 readU32 readU16 readU8
  simp [List.getD]
  omega

/-! ## Alignment lemmas -/

theorem align8N_dvd (n : Nat) : 8 ∣ align8N n := by
  unfold align8N
  omega

theorem align8N_ge (n : Nat) : n ≤ align8N n := by
  unfold align8N
  omega

theorem align8N_lt (n : Nat) : align8N n < n + 8 := by
  unfold align8N
  omega

theorem alignUp8_dvd (x : Int) : 8 ∣ alignUp8 x := by
  unfold alignUp8
  omega

theorem alignUp8_mono (x y : Int) (h : x ≤ y) : alignUp8 x ≤ alignUp8 y := by
  unfold alignUp8
  omega

theorem alignUp8_of_dvd (x : Int) (h : 8 ∣ x) : alignUp8 x = x := by
  unfold alignUp8
  omega

theorem le_alignUp8 (x : Int) : x ≤ alignUp8 x := by
  unfold alignUp8
  omega

theorem dvd8_alignUp8_toNat (x : Int) : 8 ∣ (alignUp8 x).toNat := by
  rcases Int.le_or_lt 0 (alignUp8 x) with h | h
  · have hd := alignUp8_dvd x
    omega
  · rw [Int.toNat_of_nonpos (Int.le_of_lt h)]
    exact Dvd.intro 0 rfl

/-! ## sub-buffer lemmas -/

theorem subBytes_append_left (l r : List Nat) (len : Nat) (h : len ≤ l.length) :
    subBytes (l ++ r) 0 len = subBytes l 0 len := by
  unfold subBytes
  simp [List.take_append_eq_append_take]
  omega

theorem subBytes_shift (l r : List Nat) (k len : Nat) :
    subBytes (l ++ r) (l.length + k) len = subBytes r k len := by
  unfold subBytes
  rw [List.drop_append_eq_append_drop, List.drop_eq_nil_of_le (by omega)]
  simp

/-! ## PE checksum: the loop of `csum_bytes` equals the spec's word fold -/

theorem csum_bytes_eq_specFoldSum (l : List Nat) (c : Nat) :
    csum_bytes c l = specFoldSum c l := by
  generalize hn : l.length = n
  induction n using Nat.strong_induction_on generalizing l c with
  | _ n ih =>
    match l, hn with
    | [], _ => simp [csum_bytes, specFoldSum, toWords16]
    | [b0], _ => simp [csum_bytes, specFoldSum, toWords16]
    | b0 :: b1 :: rest, hn =>
      have hlen : rest.length < n := by simp at hn; omega
      have h := ih rest.length hlen rest (csum_update_fold c (b0 + 256 * b1)) rfl
      simp only [csum_bytes, specFoldSum, toWords16, List.foldl] at h ⊢
      exact h

theorem checksumValue_lt (img : Image) : checksumValue img < 4294967296 := by
  unfold checksumValue
  exact Nat.mod_lt _ (by norm_num)

/-- C3: the PE checksum value written on image-write equals the specified
fold sum: fold 16-bit little-endian words (`csum_update_fold`) over
`[0, off(CheckSum))` and `[off(CheckSum)+4, data_size)`, then over the
signature bytes when a signature is being written; add `data_size` (plus
the signature length when signed); the final 32-bit value is stored
little-endian into the checksum field. -/
theorem c3_checksum_is_spec_fold (img : Image)
    (h1 : img.fields.checksumOff + 4 ≤ img.dataSize)
    (h2 : img.dataSize ≤ img.buf.length) :
    readU32 (image_pecoff_update_checksum img).buf img.fields.checksumOff =
      ((if isSigned img then
          specFoldSum (specFoldSum (specFoldSum 0 (subBytes img.buf 0 img.fields.checksumOff))
            (subBytes img.buf (img.fields.checksumOff + 4)
              (img.dataSize - (img.fields.checksumOff + 4)))) (img.sigbuf.getD [])
        else
          specFoldSum (specFoldSum 0 (subBytes img.buf 0 img.fields.checksumOff))
            (subBytes img.buf (img.fields.checksumOff + 4)
              (img.dataSize - (img.fields.checksumOff + 4)))) +
        img.dataSize + (if isSigned img then sigLen img else 0)) % 4294967296 := by
  unfold image_pecoff_update_checksum
  rw [readU32_writeU32_self _ _ _ (by omega) (checksumValue_lt img)]
  unfold checksumValue
  simp only [csum_bytes_eq_specFoldSum]


/-- C3 witness: the theorem applied to a concrete signed image. -/
theorem c3_witness :
    readU32 (image_pecoff_update_checksum wImgC3).buf wImgC3.fields.checksumOff =
      ((if isSigned wImgC3 then
          specFoldSum (specFoldSum (specFoldSum 0 (subBytes wImgC3.buf 0 wImgC3.fields.checksumOff))
            (subBytes wImgC3.buf (wImgC3.fields.checksumOff + 4)
              (wImgC3.dataSize - (wImgC3.fields.checksumOff + 4)))) (wImgC3.sigbuf.getD [])
        else
          specFoldSum (specFoldSum 0 (subBytes wImgC3.buf 0 wImgC3.fields.checksumOff))
            (subBytes wImgC3.buf (wImgC3.fields.checksumOff + 4)
              (wImgC3.dataSize - (wImgC3.fields.checksumOff + 4)))) +
        wImgC3.dataSize + (if isSigned wImgC3 then sigLen wImgC3 else 0)) % 4294967296 :=
  c3_checksum_is_spec_fold wImgC3 (by decide) (by decide)

/-- C4: on `image_write`, data directory entry 4 is set to
`(data_size, len(sig_bytes))` when signed and `(0, 0)` otherwise, and the
emitted output is exactly the first `data_size` bytes of the (updated)
buffer followed by the signature bytes when present. -/
theorem c4_write_directory_and_output (img : Image)
    (h1 : img.fields.dataDirSigOff + 8 ≤ img.buf.length)
    (h2 : img.fields.checksumOff + 4 ≤ img.fields.dataDirSigOff)
    (h3 : img.dataSize < 4294967296) (h4 : sigLen img < 4294967296) :
    readU32 (image_write img).1.buf img.fields.dataDirSigOff =
        (if isSigned img then img.dataSize else 0) ∧
    readU32 (image_write img).1.buf (img.fields.dataDirSigOff + 4) =
        (if isSigned img then sigLen img else 0) ∧
    (image_write img).2 = (image_write img).1.buf.take img.dataSize ++
        (if isSigned img then img.sigbuf.getD [] else []) := by
  by_cases hs : isSigned img = true
  · simp only [image_write, hs, if_true, image_pecoff_update_checksum]
    refine ⟨?_, ?_, trivial⟩
    · rw [readU32_writeU32_of_ge _ _ _ _ (by omega),
        readU32_writeU32_of_lt _ _ _ _ (by omega),
        readU32_writeU32_self _ _ _ (by try simp only [length_writeU32]
                                        omega) (by omega),
        Nat.mod_eq_of_lt h3]
    · rw [readU32_writeU32_of_ge _ _ _ _ (by omega),
        readU32_writeU32_self _ _ _ (by try simp only [length_writeU32]
                                        omega) (by omega),
        Nat.mod_eq_of_lt h4]
  · simp only [Bool.not_eq_true] at hs
    simp only [image_write, hs, if_false, image_pecoff_update_checksum,
      Bool.false_eq_true]
    refine ⟨?_, ?_, trivial⟩
    · rw [readU32_writeU32_of_ge _ _ _ _ (by omega),
        readU32_writeU32_of_lt _ _ _ _ (by omega),
        readU32_writeU32_self _ _ _ (by try simp only [length_writeU32]
                                        omega) (by omega)]
    · rw [readU32_writeU32_of_ge _ _ _ _ (by omega),
        readU32_writeU32_self _ _ _ (by try simp only [length_writeU32]
                                        omega) (by omega)]


/-- C4 witness: the theorem applied to a concrete signed image. -/
theorem c4_witness :
    readU32 (image_write wImgC4).1.buf wImgC4.fields.dataDirSigOff =
        (if isSigned wImgC4 then wImgC4.dataSize else 0) ∧
    readU32 (image_write wImgC4).1.buf (wImgC4.fields.dataDirSigOff + 4) =
        (if isSigned wImgC4 then sigLen wImgC4 else 0) ∧
    (image_write wImgC4).2 = (image_write wImgC4).1.buf.take wImgC4.dataSize ++
        (if isSigned wImgC4 then wImgC4.sigbuf.getD [] else []) :=
  c4_write_directory_and_output wImgC4 (by decide) (by decide) (by decide) (by decide)

/-! ## Certificate-table entry lemmas -/

theorem readU8_shift (l r : List Nat) (k : Nat) :
    readU8 (l ++ r) (l.length + k) = readU8 r k := by
  unfold readU8
  rw [List.getD_append_right _ _ _ _ (by omega)]
  congr 1
  omega

theorem readU16_shift (l r : List Nat) (k : Nat) :
    readU16 (l ++ r) (l.length + k) = readU16 r k := by
  unfold readU16
  have h1 : l.length + k + 1 = l.length + (k + 1) := by omega
  rw [readU8_shift, h1, readU8_shift]

theorem readU32_shift (l r : List Nat) (k : Nat) :
    readU32 (l ++ r) (l.length + k) = readU32 r k := by
  unfold readU32
  have h1 : l.length + k + 2 = l.length + (k + 2) := by omega
  rw [readU16_shift, h1, readU16_shift]

theorem entryOf_length (s : List Nat) :
    (entryOf s).length = align8N (s.length + 8) := by
  have := align8N_ge (s.length + 8)
  unfold entryOf le32 le16
  simp
  omega

theorem readU32_entryOf_append (s rest : List Nat) (h : s.length + 8 < 4294967296) :
    readU32 (entryOf s ++ rest) 0 = s.length + 8 := by
  unfold entryOf
  simp only [List.append_assoc]
  rw [readU32_le32_append _ _ (Nat.mod_lt _ (by norm_num))]
  exact Nat.mod_eq_of_lt h

theorem readU32_entryOf (s : List Nat) (h : s.length + 8 < 4294967296) :
    readU32 (entryOf s) 0 = s.length + 8 := by
  have h2 := readU32_entryOf_append s [] h
  rwa [List.append_nil] at h2

theorem sigWalkAddr_entry_cons (s rest : List Nat) (h : s.length + 8 < 4294967296)
    (n : Nat) : sigWalkAddr (entryOf s ++ rest) (n + 1) =
      (entryOf s).length + sigWalkAddr rest n := by
  induction n with
  | zero =>
    show sigWalkAddr _ 0 + align8N (readU32 _ (sigWalkAddr _ 0)) = _
    rw [show sigWalkAddr (entryOf s ++ rest) 0 = 0 from rfl]
    rw [readU32_entryOf_append s rest h, entryOf_length]
    rw [show sigWalkAddr rest 0 = 0 from rfl]
    omega
  | succ n ih =>
    show sigWalkAddr _ (n + 1) + align8N (readU32 _ (sigWalkAddr _ (n + 1))) = _
    rw [ih, readU32_shift]
    show _ = (entryOf s).length +
      (sigWalkAddr rest n + align8N (readU32 rest (sigWalkAddr rest n)))
    omega


theorem entriesOf_cons (s : List Nat) (rest : List (List Nat)) :
    entriesOf (s :: rest) = entryOf s ++ entriesOf rest := rfl

theorem entries_walk_full (sigs : List (List Nat))
    (hb : ∀ s ∈ sigs, s.length + 8 < 4294967296) :
    sigWalkAddr (entriesOf sigs) sigs.length = (entriesOf sigs).length := by
  induction sigs with
  | nil => rfl
  | cons s rest ih =>
    rw [entriesOf_cons, List.length_cons,
      sigWalkAddr_entry_cons s _ (hb s (by simp)),
      ih (fun x hx => hb x (by simp [hx])), List.length_append]

theorem entries_get (sigs : List (List Nat))
    (hb : ∀ s ∈ sigs, s.length + 8 < 4294967296) :
    ∀ i, i < sigs.length →
      sigWalkAddr (entriesOf sigs) i < (entriesOf sigs).length ∧
      readU32 (entriesOf sigs) (sigWalkAddr (entriesOf sigs) i) =
        (sigs.getD i []).length + 8 ∧
      subBytes (entriesOf sigs) (sigWalkAddr (entriesOf sigs) i + 8)
        ((sigs.getD i []).length) = sigs.getD i [] := by
  induction sigs with
  | nil => intro i hi; simp at hi
  | cons s rest ih =>
    intro i hi
    have hs : s.length + 8 < 4294967296 := hb s (by simp)
    have hrest : ∀ x ∈ rest, x.length + 8 < 4294967296 :=
      fun x hx => hb x (by simp [hx])
    match i with
    | 0 =>
      refine ⟨?_, ?_, ?_⟩
      · show 0 < _
        rw [entriesOf_cons, List.length_append, entryOf_length]
        have := align8N_ge (s.length + 8)
        omega
      · show readU32 _ 0 = _
        rw [entriesOf_cons, readU32_entryOf_append s _ hs]
        rfl
      · show subBytes _ (0 + 8) _ = _
        rw [entriesOf_cons]
        show subBytes _ 8 s.length = s
        unfold entryOf subBytes
        simp only [List.append_assoc, le32, le16, List.cons_append, List.nil_append]
        rw [show (8 : Nat) = 0 + 1 + 1 + 1 + 1 + 1 + 1 + 1 + 1 from rfl]
        simp only [List.drop_succ_cons, List.drop_zero]
        rw [List.take_append_eq_append_take]
        simp
    | i + 1 =>
      have hwalk := sigWalkAddr_entry_cons s (entriesOf rest) hs i
      have hg := ih hrest i (by simp at hi; omega)
      refine ⟨?_, ?_, ?_⟩
      · rw [entriesOf_cons, hwalk, List.length_append]
        omega
      · rw [entriesOf_cons, hwalk, readU32_shift]
        rw [hg.2.1]
        rfl
      · rw [entriesOf_cons, hwalk]
        have hidx : (entryOf s).length + sigWalkAddr (entriesOf rest) i + 8 =
            (entryOf s).length + (sigWalkAddr (entriesOf rest) i + 8) := by omega
        rw [hidx, subBytes_shift]
        rw [show (s :: rest).getD (i + 1) [] = rest.getD i [] from rfl]
        exact hg.2.2

theorem addMany_sigbuf_some (sigs : List (List Nat)) :
    ∀ (img : Image) (sb : List Nat), img.sigbuf = some sb →
      (addMany img sigs).sigbuf = some (sb ++ entriesOf sigs) := by
  induction sigs with
  | nil => intro img sb h; simpa [addMany, entriesOf] using h
  | cons s rest ih =>
    intro img sb h
    have h1 : (image_add_signature img s).sigbuf = some (sb ++ entryOf s) := by
      simp [image_add_signature, h]
    have h2 := ih (image_add_signature img s) (sb ++ entryOf s) h1
    simp only [addMany, List.foldl] at h2 ⊢
    rw [h2, entriesOf_cons, List.append_assoc]

theorem addMany_sigbuf_of_none (img : Image) (s : List Nat) (sigs : List (List Nat))
    (h0 : img.sigbuf = none) :
    (addMany img (s :: sigs)).sigbuf = some (entriesOf (s :: sigs)) := by
  have h1 : (image_add_signature img s).sigbuf = some (entryOf s) := by
    simp [image_add_signature, h0]
  have h2 := addMany_sigbuf_some sigs (image_add_signature img s) (entryOf s) h1
  simp only [addMany, List.foldl] at h2 ⊢
  rw [h2, entriesOf_cons]

theorem addMany_rest (sigs : List (List Nat)) :
    ∀ img : Image, (addMany img sigs).buf = img.buf ∧
      (addMany img sigs).fields = img.fields ∧
      (addMany img sigs).dataSize = img.dataSize ∧
      (addMany img sigs).checksumRegions = img.checksumRegions := by
  induction sigs with
  | nil => exact fun img => ⟨rfl, rfl, rfl, rfl⟩
  | cons s rest ih =>
    intro img
    have h2 := ih (image_add_signature img s)
    simpa [addMany, image_add_signature] using h2

/-- C5: on an unsigned image, `add_signature(s)` followed by
`remove_signature(0)` restores the image exactly: `sig_bytes` becomes
empty again and buffer, parsed fields, regions and `data_size` are
unchanged. -/
theorem c5_add_remove_roundtrip (img : Image) (s : List Nat)
    (h0 : img.sigbuf = none) (h1 : s.length + 8 < 4294967296) :
    image_remove_signature (image_add_signature img s) 0 = (0, img) := by
  obtain ⟨b, f, sb, cr, d⟩ := img
  simp only [Image.sigbuf] at h0
  subst h0
  have hadd : (image_add_signature ⟨b, f, none, cr, d⟩ s).sigbuf = some (entryOf s) := by
    simp [image_add_signature]
  have hlen : (entryOf s).length = align8N (s.length + 8) := entryOf_length s
  have hge := align8N_ge (s.length + 8)
  unfold image_remove_signature
  rw [hadd]
  simp only
  rw [show sigWalkAddr (entryOf s) 0 = 0 from rfl]
  rw [if_neg (by omega), readU32_entryOf s h1]
  rw [if_pos (by omega), if_pos rfl]
  rfl


/-- C5 witness: the round-trip theorem at a concrete unsigned image and a
concrete 10-byte payload. -/
theorem c5_witness :
    image_remove_signature
      (image_add_signature wImgSig [170, 170, 170, 170, 170, 170, 170, 170, 170, 170]) 0 =
      (0, wImgSig) :=
  c5_add_remove_roundtrip wImgSig _ rfl (by decide)

/-- C6: after `k` adds on an unsigned image, `get_signature(i)` succeeds
with the `i`-th payload for every `i < k`, fails at `i = k`, and the
failing `remove_signature(k)` returns -1 leaving the image unchanged. -/
theorem c6_signature_count (img : Image) (sigs : List (List Nat))
    (h0 : img.sigbuf = none)
    (hb : ∀ s ∈ sigs, s.length + 8 < 4294967296) :
    getAllOkB (addMany img sigs) sigs = true ∧
    image_get_signature (addMany img sigs) sigs.length = none ∧
    image_remove_signature (addMany img sigs) sigs.length =
      (-1, addMany img sigs) := by
  match sigs, hb with
  | [], hb =>
    refine ⟨rfl, ?_, ?_⟩
    · simp only [addMany, List.foldl, image_get_signature, h0]
    · simp only [addMany, List.foldl, image_remove_signature, h0]
  | s :: rest, hb =>
    have hsb := addMany_sigbuf_of_none img s rest h0
    have hfull := entries_walk_full (s :: rest) hb
    refine ⟨?_, ?_, ?_⟩
    · rw [getAllOkB, List.all_eq_true]
      intro i hi
      rw [List.mem_range] at hi
      have hg := entries_get (s :: rest) hb i hi
      rw [beq_iff_eq]
      unfold image_get_signature
      rw [hsb]
      simp only
      rw [if_neg (by omega), hg.2.1]
      rw [show ((s :: rest).getD i []).length + 8 - 8 = ((s :: rest).getD i []).length
        from by omega]
      rw [hg.2.2]
    · unfold image_get_signature
      rw [hsb]
      simp only
      rw [if_pos (by omega)]
    · unfold image_remove_signature
      rw [hsb]
      simp only
      rw [if_pos (by omega)]

/-- C6 witness: two adds on a concrete unsigned image; both gets succeed
with the original payloads, the third fails, and the failing remove leaves
the image unchanged. -/
theorem c6_witness :
    getAllOkB (addMany wImgSig [[170, 170], [1, 2, 3]]) [[170, 170], [1, 2, 3]] = true ∧
    image_get_signature (addMany wImgSig [[170, 170], [1, 2, 3]]) 2 = none ∧
    image_remove_signature (addMany wImgSig [[170, 170], [1, 2, 3]]) 2 =
      (-1, addMany wImgSig [[170, 170], [1, 2, 3]]) :=
  c6_signature_count wImgSig [[170, 170], [1, 2, 3]] rfl (by decide)

/-! ## Alignment preservation of the certificate-table editor -/

theorem sigLen_add (img : Image) (s : List Nat) :
    sigLen (image_add_signature img s) = sigLen img + align8N (s.length + 8) := by
  simp [sigLen, image_add_signature, entryOf_length]

theorem loadOnce_dvd (buf : List Nat) (i : Image) (h : loadOnce buf = some i) :
    8 ∣ i.dataSize := by
  unfold loadOnce at h
  cases hp : parseFields buf with
  | none => rw [hp] at h; exact absurd h (by simp)
  | some f =>
    rw [hp] at h
    simp only at h
    cases h
    show 8 ∣ (image_find_regions buf f).2
    unfold image_find_regions
    simp only
    exact dvd8_alignUp8_toNat _

/-- C7 (amended): `data_size` is a multiple of 8 after every successful
load; and any sequence of add/remove operations keeps `len(sig_bytes)` a
multiple of 8 whenever it starts as one (in particular starting unsigned),
while never touching the image buffer or `data_size`.  (The original
claim's assertion about `sig_bytes` populated from a pre-signed input file
is refuted by `c7_counterexample`: load copies the security-directory size
verbatim, which need not be 8-aligned.) -/
theorem c7_alignment_amended :
    (∀ (buf : List Nat) (img : Image), image_load buf = some img →
      8 ∣ img.dataSize) ∧
    (∀ (img : Image) (ops : List SigOp), 8 ∣ sigLen img →
      8 ∣ sigLen (applySigOps img ops) ∧
      (applySigOps img ops).dataSize = img.dataSize ∧
      (applySigOps img ops).buf = img.buf) := by
  constructor
  · intro buf img h
    unfold image_load at h
    cases hl : loadOnce buf with
    | none => rw [hl] at h; exact absurd h (by simp)
    | some i1 =>
      rw [hl] at h
      simp only at h
      by_cases hle : i1.dataSize ≤ buf.length
      · rw [if_pos hle] at h
        cases h
        exact loadOnce_dvd buf img hl
      · rw [if_neg hle] at h
        cases hl2 : loadOnce (buf ++ List.replicate (i1.dataSize - buf.length) 0) with
        | none => rw [hl2] at h; exact absurd h (by simp)
        | some i2 =>
          rw [hl2] at h
          simp only at h
          by_cases hle2 : i2.dataSize ≤ (buf ++ List.replicate (i1.dataSize - buf.length) 0).length
          · rw [if_pos hle2] at h
            cases h
            exact loadOnce_dvd _ img hl2
          · rw [if_neg hle2] at h
            exact absurd h (by simp)
  · intro img ops h
    induction ops generalizing img with
    | nil => exact ⟨h, rfl, rfl⟩
    | cons op rest ih =>
      have hstep : 8 ∣ sigLen (applySigOp img op) ∧
          (applySigOp img op).dataSize = img.dataSize ∧
          (applySigOp img op).buf = img.buf := by
        cases op with
        | add s =>
          show 8 ∣ sigLen (image_add_signature img s) ∧
            (image_add_signature img s).dataSize = img.dataSize ∧
            (image_add_signature img s).buf = img.buf
          refine ⟨?_, rfl, rfl⟩
          rw [sigLen_add]
          exact Nat.dvd_add h (align8N_dvd _)
        | remove n =>
          show 8 ∣ sigLen (image_remove_signature img n).2 ∧
            (image_remove_signature img n).2.dataSize = img.dataSize ∧
            (image_remove_signature img n).2.buf = img.buf
          unfold image_remove_signature
          cases hsb : img.sigbuf with
          | none => exact ⟨h, rfl, rfl⟩
          | some sb =>
            have hlen : sigLen img = sb.length := by simp [sigLen, hsb]
            rw [hlen] at h
            have hal := align8N_dvd (readU32 sb (sigWalkAddr sb n))
            simp only
            by_cases h1 : sigWalkAddr sb n ≥ sb.length
            · rw [if_pos h1]
              refine ⟨?_, rfl, rfl⟩
              simp [sigLen, hsb, hlen]
              omega
            · rw [if_neg h1]
              by_cases h2 : sigWalkAddr sb n +
                  align8N (readU32 sb (sigWalkAddr sb n)) ≥ sb.length
              · rw [if_pos h2]
                by_cases h3 : sigWalkAddr sb n = 0
                · rw [if_pos h3]
                  refine ⟨?_, rfl, rfl⟩
                  simp [sigLen]
                · rw [if_neg h3]
                  refine ⟨?_, rfl, rfl⟩
                  simp [sigLen]
                  omega
              · rw [if_neg h2]
                refine ⟨?_, rfl, rfl⟩
                simp [sigLen]
                omega
      have hrest := ih (applySigOp img op) hstep.1
      refine ⟨?_, ?_, ?_⟩
      · exact hrest.1
      · rw [show applySigOps img (op :: rest) = applySigOps (applySigOp img op) rest
          from rfl, hrest.2.1, hstep.2.1]
      · rw [show applySigOps img (op :: rest) = applySigOps (applySigOp img op) rest
          from rfl, hrest.2.2, hstep.2.2]

set_option maxRecDepth 40000 in
/-- C7 counterexample: `cexC7` passes header validation and loads with
`sig_bytes` of length 12 — copied from a security directory whose size
field is 12 — which is not a multiple of 8. -/
theorem c7_counterexample :
    (image_load cexC7).map sigLen = some 12 ∧ ¬ (8 ∣ (12 : Nat)) :=
  ⟨by rfl, by decide⟩

set_option maxRecDepth 40000 in
/-- C7 witness: the amended theorem at a concrete load and a concrete
add-then-remove sequence. -/
theorem c7_witness :
    8 ∣ ((image_load wC7).getD default).dataSize ∧
    8 ∣ sigLen (applySigOps wImgSig [SigOp.add [1, 2, 3], SigOp.remove 0]) :=
  ⟨c7_alignment_amended.1 wC7 ((image_load wC7).getD default) rfl,
   (c7_alignment_amended.2 wImgSig [SigOp.add [1, 2, 3], SigOp.remove 0]
     (by decide)).1⟩

/-! ## Stability of parsing under zero padding, and C8 -/

theorem parse_machine_append_zeros (buf : List Nat) (n opt magic : Nat) :
    parse_machine (buf ++ List.replicate n 0) opt magic = parse_machine buf opt magic := by
  unfold parse_machine
  simp only [readU8_append_zeros]

theorem parseFields_append_zeros (buf : List Nat) (n : Nat) (f : PFields)
    (h : parseFields buf = some f) :
    parseFields (buf ++ List.replicate n 0) = some f := by
  have hL : (buf ++ List.replicate n 0).length = buf.length + n := by simp
  simp only [parseFields, parse_machine_append_zeros, readU8_append_zeros,
    readU16_append_zeros, readU32_append_zeros, hL] at h ⊢
  by_cases c1 : buf.length < 64
  · rw [if_pos c1] at h
    exact absurd h (by simp)
  · rw [if_neg c1] at h
    rw [if_neg (by omega)]
    by_cases c2 : readU8 buf 0 = 77 ∧ readU8 buf 1 = 90
    · rw [if_pos c2] at h
      rw [if_pos c2]
      by_cases c3 : readU32 buf 60 ≥ buf.length
      · rw [if_pos c3] at h
        exact absurd h (by simp)
      · rw [if_neg c3] at h
        rw [if_neg (by omega)]
        by_cases c4 : readU32 buf 60 + 24 > buf.length
        · rw [if_pos c4] at h
          exact absurd h (by simp)
        · rw [if_neg c4] at h
          rw [if_neg (by omega)]
          by_cases c5 : readU8 buf (readU32 buf 60) = 80 ∧
              readU8 buf (readU32 buf 60 + 1) = 69 ∧
              readU8 buf (readU32 buf 60 + 2) = 0 ∧ readU8 buf (readU32 buf 60 + 3) = 0
          · rw [if_pos c5] at h
            rw [if_pos c5]
            cases hv : parse_machine buf (readU32 buf 60 + 24)
                (readU16 buf (readU32 buf 60 + 4)) with
            | none =>
              rw [hv] at h
              exact absurd h (by simp)
            | some minSize =>
              rw [hv] at h
              simp only at h ⊢
              by_cases c6 : readU16 buf (readU32 buf 60 + 20) < minSize + 40
              · rw [if_pos c6] at h
                exact absurd h (by simp)
              · rw [if_neg c6] at h
                rw [if_neg c6]
                by_cases c7 : buf.length < 64 + 24 + readU16 buf (readU32 buf 60 + 20)
                · rw [if_pos c7] at h
                  exact absurd h (by simp)
                · rw [if_neg c7] at h
                  rw [if_neg (by omega)]
                  exact h
          · rw [if_neg c5] at h
            exact absurd h (by simp)
    · rw [if_neg c2] at h
      exact absurd h (by simp)

theorem foldl_eq_of_step_eq {α β : Type} (g1 g2 : α → β → α)
    (h : ∀ a b, g1 a b = g2 a b) :
    ∀ (l : List β) (a : α), l.foldl g1 a = l.foldl g2 a := by
  intro l
  induction l with
  | nil => intro a; rfl
  | cons x xs ih =>
    intro a
    simp only [List.foldl]
    rw [h]
    exact ih _

theorem buildRegions_append_zeros (buf : List Nat) (n : Nat) (f : PFields) :
    buildRegions (buf ++ List.replicate n 0) f = buildRegions buf f := by
  unfold buildRegions
  exact foldl_eq_of_step_eq _ _
    (fun a b => by unfold sectionStep; simp only [readU32_append_zeros]) _ _

theorem image_find_regions_snd (buf : List Nat) (f : PFields) :
    (image_find_regions buf f).2 =
      if (buildRegions buf f).2 + (f.certTableSize : Int) < (buf.length : Int) then
        (alignUp8 (((((buildRegions buf f).2).toNat : Nat) : Int) +
          ((buf.length : Int) - (buildRegions buf f).2 - (f.certTableSize : Int)))).toNat
      else
        (alignUp8 ((((sortedRegions buf f).getLastD ⟨0, 0⟩).off : Int) +
          ((sortedRegions buf f).getLastD ⟨0, 0⟩).size)).toNat := by
  unfold image_find_regions sortedRegions
  simp only
  split
  · rw [List.getLastD_concat]
  · rfl

theorem foldl_sectionStep_snd_mono (buf : List Nat) (f : PFields) :
    ∀ (l : List Nat) (acc : List Region × Int),
      acc.2 ≤ (l.foldl (sectionStep buf f) acc).2 := by
  intro l
  induction l with
  | nil => intro acc; exact le_refl _
  | cons x xs ih =>
    intro acc
    refine le_trans ?_ (ih (sectionStep buf f acc x))
    unfold sectionStep
    simp only
    split
    · exact le_refl _
    · simp only
      omega

theorem buildRegions_snd_nonneg (buf : List Nat) (f : PFields) :
    0 ≤ (buildRegions buf f).2 := by
  unfold buildRegions
  refine le_trans ?_ (foldl_sectionStep_snd_mono buf f _ _)
  show (0 : Int) ≤ 12 + ((fixedRegions f).map Region.size).sum
  simp [fixedRegions]
  omega

/-- C8: whenever a parse pass computes a `data_size` that exceeds the
buffer, re-parsing after growing the buffer to `data_size` (zero-filled)
succeeds and computes a `data_size` that fits, so the pad-and-re-parse
loop of `image_load` terminates after at most one re-parse. -/
theorem c8_pad_reparse_terminates (buf : List Nat) (img : Image)
    (h : loadOnce buf = some img) (hgt : buf.length < img.dataSize) :
    loadOnceFits (buf ++ List.replicate (img.dataSize - buf.length) 0) = true := by
  unfold loadOnce at h
  cases hp : parseFields buf with
  | none => rw [hp] at h; exact absurd h (by simp)
  | some f =>
    rw [hp] at h
    simp only at h
    cases h
    simp only at hgt ⊢
    set n := (image_find_regions buf f).2 - buf.length with hn
    set buf2 := buf ++ List.replicate n 0 with hbuf2
    have hL2 : buf2.length = (image_find_regions buf f).2 := by
      rw [hbuf2]
      simp only [List.length_append, List.length_replicate]
      omega
    have hload2 : loadOnce buf2 = some
        { buf := buf2, fields := f, sigbuf := sigbufOf buf2 f,
          checksumRegions := (image_find_regions buf2 f).1,
          dataSize := (image_find_regions buf2 f).2 } := by
      unfold loadOnce
      rw [parseFields_append_zeros buf n f hp]
    unfold loadOnceFits
    rw [hload2]
    simp only
    rw [decide_eq_true_eq]
    -- arithmetic core
    have hbr : buildRegions buf2 f = buildRegions buf f := buildRegions_append_zeros buf n f
    have hsr : sortedRegions buf2 f = sortedRegions buf f := by
      unfold sortedRegions
      rw [hbr]
    have hB0 : 0 ≤ (buildRegions buf f).2 := buildRegions_snd_nonneg buf f
    have hdvd : 8 ∣ (image_find_regions buf f).2 := by
      unfold image_find_regions
      simp only
      exact dvd8_alignUp8_toNat _
    rw [image_find_regions_snd buf2 f, hbr, hsr, hL2]
    by_cases hc2 : (buildRegions buf f).2 + (f.certTableSize : Int) <
        ((image_find_regions buf f).2 : Int)
    · rw [if_pos hc2]
      rw [Int.toNat_of_nonneg hB0]
      have he : (buildRegions buf f).2 +
          (((image_find_regions buf f).2 : Int) - (buildRegions buf f).2 -
            (f.certTableSize : Int)) =
          ((image_find_regions buf f).2 : Int) - (f.certTableSize : Int) := by
        ring
      rw [he]
      have hd2 : (8 : Int) ∣ ((image_find_regions buf f).2 : Int) := by
        exact_mod_cast hdvd
      have hle : alignUp8 (((image_find_regions buf f).2 : Int) - (f.certTableSize : Int)) ≤
          ((image_find_regions buf f).2 : Int) := by
        calc alignUp8 (((image_find_regions buf f).2 : Int) - (f.certTableSize : Int))
            ≤ alignUp8 ((image_find_regions buf f).2 : Int) :=
              alignUp8_mono _ _ (by omega)
          _ = ((image_find_regions buf f).2 : Int) := alignUp8_of_dvd _ hd2
      omega
    · rw [if_neg hc2]
      -- then the first pass also appended no endjunk, so data_size is unchanged
      have hc1 : ¬ ((buildRegions buf f).2 + (f.certTableSize : Int) <
          ((buf.length : Nat) : Int)) := by
        intro hcon
        apply hc2
        have : (buf.length : Int) < ((image_find_regions buf f).2 : Int) := by
          exact_mod_cast hgt
        omega
      have hds1 : (image_find_regions buf f).2 =
          (alignUp8 ((((sortedRegions buf f).getLastD ⟨0, 0⟩).off : Int) +
            ((sortedRegions buf f).getLastD ⟨0, 0⟩).size)).toNat := by
        rw [image_find_regions_snd buf f, if_neg hc1]
      omega

set_option maxRecDepth 40000 in
/-- C8 witness: the theorem applied to a concrete file whose single section
overruns the buffer (first pass computes `data_size = 0x300 > 0x258`). -/
theorem c8_witness :
    loadOnceFits (wC8 ++ List.replicate
      (((loadOnce wC8).getD default).dataSize - wC8.length) 0) = true :=
  c8_pad_reparse_terminates wC8 ((loadOnce wC8).getD default) rfl (by decide)

/-! ## C2: the region builder's output -/

theorem foldl_sectionStep_fst (buf : List Nat) (f : PFields) :
    ∀ (l : List Nat) (acc : List Region × Int),
      (l.foldl (sectionStep buf f) acc).1 =
        acc.1 ++ l.filterMap (fun i =>
          if readU32 buf (f.scnhdrOff + 40 * i + 16) = 0 then none
          else some ⟨readU32 buf (f.scnhdrOff + 40 * i + 20),
            (readU32 buf (f.scnhdrOff + 40 * i + 16) : Int)⟩) := by
  intro l
  induction l with
  | nil => intro acc; simp
  | cons x xs ih =>
    intro acc
    simp only [List.foldl, List.filterMap_cons]
    by_cases hz : readU32 buf (f.scnhdrOff + 40 * x + 16) = 0
    · rw [show sectionStep buf f acc x = acc from by unfold sectionStep; rw [if_pos hz]]
      rw [ih]
      simp [hz]
    · rw [show sectionStep buf f acc x =
          (acc.1 ++ [⟨readU32 buf (f.scnhdrOff + 40 * x + 20),
            (readU32 buf (f.scnhdrOff + 40 * x + 16) : Int)⟩], acc.2 +
              readU32 buf (f.scnhdrOff + 40 * x + 16)) from
        by unfold sectionStep; rw [if_neg hz]]
      rw [ih]
      simp [hz]

theorem buildRegions_fst (buf : List Nat) (f : PFields) :
    (buildRegions buf f).1 = fixedRegions f ++ sectionRegions buf f := by
  unfold buildRegions sectionRegions
  exact foldl_sectionStep_fst buf f _ _

/-- C2: for every accepted image the region builder produces exactly
`R0 = [0, off(CheckSum))`, `R1 = [off(CheckSum)+4, off(DataDirectory[4]))`,
`R2 = [off(DataDirectory[4])+8, SizeOfHeaders)`, plus one region
`[s_scnptr, s_scnptr + s_size)` per section with nonzero raw size (in
section-table order), and the post-`qsort` list is a permutation of these
sorted by starting offset. -/
theorem c2_region_builder (buf : List Nat) (f : PFields) (sb : Option (List Nat))
    (h : image_pecoff_parse buf = some (f, sb)) :
    (buildRegions buf f).1 =
      [⟨0, (f.checksumOff : Int)⟩,
       ⟨f.checksumOff + 4, (f.dataDirSigOff : Int) - ((f.checksumOff : Int) + 4)⟩,
       ⟨f.dataDirSigOff + 8, (f.headerSize : Int) - ((f.dataDirSigOff : Int) + 8)⟩] ++
        sectionRegions buf f ∧
    List.Perm (sortedRegions buf f) (buildRegions buf f).1 ∧
    List.Pairwise regionLE (sortedRegions buf f) := by
  refine ⟨?_, ?_, ?_⟩
  · rw [buildRegions_fst]
    rfl
  · exact List.perm_insertionSort regionLE _
  · exact List.sorted_insertionSort regionLE _


set_option maxRecDepth 40000 in
/-- C2 witness: the theorem applied to a concrete two-section image whose
sections are declared out of file order. -/
theorem c2_witness :
    (buildRegions wC2 wC2f).1 =
      [⟨0, (wC2f.checksumOff : Int)⟩,
       ⟨wC2f.checksumOff + 4, (wC2f.dataDirSigOff : Int) - ((wC2f.checksumOff : Int) + 4)⟩,
       ⟨wC2f.dataDirSigOff + 8,
         (wC2f.headerSize : Int) - ((wC2f.dataDirSigOff : Int) + 8)⟩] ++
        sectionRegions wC2 wC2f ∧
    List.Perm (sortedRegions wC2 wC2f) (buildRegions wC2 wC2f).1 ∧
    List.Pairwise regionLE (sortedRegions wC2 wC2f) :=
  c2_region_builder wC2 wC2f (sigbufOf wC2 wC2f) rfl

/-! ## C10: the signature shadow-copy condition -/

/-- C10: when the loaded security directory size is nonzero, `sig_bytes`
is populated (with directory-size bytes copied from the certificate-table
file offset) iff the certificate-table header has revision 0x0200, type
0x0002 and a size field strictly below the file length; otherwise it
stays empty. -/
theorem c10_sigbuf_condition (buf : List Nat) (f : PFields) (sb : Option (List Nat))
    (h : image_pecoff_parse buf = some (f, sb)) (hc : f.certTableSize ≠ 0) :
    (sb = some (subBytes buf f.certTableAddr f.certTableSize) ↔
      (readU16 buf (f.certTableAddr + 4) = 0x200 ∧
       readU16 buf (f.certTableAddr + 6) = 2 ∧
       readU32 buf f.certTableAddr < buf.length)) ∧
    (¬ (readU16 buf (f.certTableAddr + 4) = 0x200 ∧
        readU16 buf (f.certTableAddr + 6) = 2 ∧
        readU32 buf f.certTableAddr < buf.length) → sb = none) := by
  have hsb : sb = sigbufOf buf f := by
    unfold image_pecoff_parse at h
    cases hp : parseFields buf with
    | none => rw [hp] at h; exact absurd h (by simp)
    | some f' =>
      rw [hp] at h
      simp only at h
      injection h with h2
      injection h2 with hf hs
      subst hf
      exact hs.symm
  subst hsb
  unfold sigbufOf
  by_cases hcond : (f.certTableSize ≠ 0 ∧ readU16 buf (f.certTableAddr + 4) = 0x200 ∧
      readU16 buf (f.certTableAddr + 6) = 2 ∧ readU32 buf f.certTableAddr < buf.length)
  · rw [if_pos hcond]
    refine ⟨⟨fun _ => ⟨hcond.2.1, hcond.2.2.1, hcond.2.2.2⟩, fun _ => rfl⟩, ?_⟩
    intro hn
    exact absurd ⟨hcond.2.1, hcond.2.2.1, hcond.2.2.2⟩ hn
  · rw [if_neg hcond]
    refine ⟨⟨fun habs => absurd habs (by simp), ?_⟩, fun _ => rfl⟩
    intro hrest
    exact absurd ⟨hc, hrest.1, hrest.2.1, hrest.2.2⟩ hcond


set_option maxRecDepth 40000 in
/-- C10 witness: the theorem applied to a concrete pre-signed image with a
valid certificate-table header. -/
theorem c10_witness :
    (sigbufOf wC10 wC10f = some (subBytes wC10 wC10f.certTableAddr wC10f.certTableSize) ↔
      (readU16 wC10 (wC10f.certTableAddr + 4) = 0x200 ∧
       readU16 wC10 (wC10f.certTableAddr + 6) = 2 ∧
       readU32 wC10 wC10f.certTableAddr < wC10.length)) ∧
    (¬ (readU16 wC10 (wC10f.certTableAddr + 4) = 0x200 ∧
        readU16 wC10 (wC10f.certTableAddr + 6) = 2 ∧
        readU32 wC10 wC10f.certTableAddr < wC10.length) → sigbufOf wC10 wC10f = none) :=
  c10_sigbuf_condition wC10 wC10f (sigbufOf wC10 wC10f) rfl (by decide)

set_option maxRecDepth 40000 in
/-- C9: `cexC9` passes every header validation and loads, yet its security
directory is `(addr = 0x10000, size = 16)`: the parse dereferences the
certificate-table header at file offset 0x10000 (`addr + 8 = 65544`) while
the buffer holds only 240 bytes — an out-of-bounds read in the source. -/
theorem c9_cert_read_out_of_bounds :
    (image_load cexC9).map certHeaderReadInBoundsB = some false ∧
    (image_load cexC9).map (fun i => i.fields.certTableSize) = some 16 ∧
    (image_load cexC9).map (fun i => i.fields.certTableAddr + 8) = some 65544 ∧
    (image_load cexC9).map (fun i => i.buf.length) = some 240 :=
  ⟨by rfl, by rfl, by rfl, by rfl⟩

set_option maxRecDepth 100000 in
/-- C1 counterexample: `cexC1` is accepted by header validation, but its
section-table gap makes the final region list (with the appended endjunk
region) violate the claimed disjointness/ordering formula
`regions[i].offset + regions[i].size ≤ regions[j].offset`. -/
theorem c1_counterexample :
    (image_load cexC1).map (fun i => regionsDisjointB i.checksumRegions) =
      some false := by rfl

/-! ## C1: geometry, chains and coverage -/




theorem image_pecoff_parse_fst (buf : List Nat) (f : PFields)
    (sb : Option (List Nat)) (h : image_pecoff_parse buf = some (f, sb)) :
    parseFields buf = some f := by
  unfold image_pecoff_parse at h
  cases hp : parseFields buf with
  | none => rw [hp] at h; exact absurd h (by simp)
  | some f' =>
    rw [hp] at h
    simp only at h
    injection h with h2
    injection h2 with hf hs
    rw [hf]

theorem parse_machine_values (buf : List Nat) (opt magic m : Nat)
    (h : parse_machine buf opt magic = some m) : m = 112 ∨ m = 96 := by
  unfold parse_machine at h
  split at h
  · split at h
    · left; exact (Option.some.inj h).symm
    · exact absurd h (by simp)
  · split at h
    · split at h
      · right; exact (Option.some.inj h).symm
      · exact absurd h (by simp)
    · exact absurd h (by simp)

theorem parseFields_dir_geometry (buf : List Nat) (f : PFields)
    (h : parseFields buf = some f) :
    f.dataDirSigOff = f.checksumOff + 64 ∨ f.dataDirSigOff = f.checksumOff + 80 := by
  simp only [parseFields] at h
  split at h
  · exact absurd h (by simp)
  · split at h
    · split at h
      · exact absurd h (by simp)
      · split at h
        · exact absurd h (by simp)
        · split at h
          · rename_i hpe
            cases hv : parse_machine buf (readU32 buf 60 + 24)
                (readU16 buf (readU32 buf 60 + 4)) with
            | none => rw [hv] at h; exact absurd h (by simp)
            | some minSize =>
              rw [hv] at h
              simp only at h
              split at h
              · exact absurd h (by simp)
              · split at h
                · exact absurd h (by simp)
                · cases h
                  rcases parse_machine_values _ _ _ _ hv with rfl | rfl
                  · right
                    simp
                  · left
                    simp
          · exact absurd h (by simp)
    · exact absurd h (by simp)

theorem chain_bound (l : List Region) :
    ∀ (x : Int), List.Chain' (fun a b => regionEnd a ≤ (b.off : Int)) l →
    (∀ r ∈ l, 0 ≤ r.size) →
    (∀ b ∈ l.head?, x ≤ (b.off : Int)) →
    ∀ c ∈ l, x ≤ (c.off : Int) := by
  induction l with
  | nil => intro x _ _ _ c hc; simp at hc
  | cons b t ih =>
    intro x hc hs hhead c hcm
    rcases List.mem_cons.mp hcm with rfl | hcm2
    · exact hhead c rfl
    · have hxb : x ≤ (b.off : Int) := hhead b rfl
      have hb0 : 0 ≤ b.size := hs b (by simp)
      refine ih x hc.tail (fun r hr => hs r (List.mem_cons_of_mem _ hr)) ?_ c hcm2
      intro d hd
      have hbd : regionEnd b ≤ (d.off : Int) := by
        rcases t with _ | ⟨e, t2⟩
        · simp at hd
        · have := (List.chain'_cons.mp hc).1
          simp only [List.head?] at hd
          injection hd with hd2
          rw [← hd2]
          exact this
      unfold regionEnd at hbd
      omega

theorem chain_pairwise_endLE (l : List Region) :
    List.Chain' (fun a b => regionEnd a ≤ (b.off : Int)) l →
    (∀ r ∈ l, 0 ≤ r.size) →
    List.Pairwise (fun a b => regionEnd a ≤ (b.off : Int)) l := by
  induction l with
  | nil => intro _ _; exact List.Pairwise.nil
  | cons a t ih =>
    intro hc hs
    refine List.pairwise_cons.mpr ⟨?_, ih hc.tail
      (fun r hr => hs r (List.mem_cons_of_mem _ hr))⟩
    intro c hcmem
    refine chain_bound t (regionEnd a) hc.tail
      (fun r hr => hs r (List.mem_cons_of_mem _ hr)) ?_ c hcmem
    intro b hb
    rcases t with _ | ⟨e, t2⟩
    · simp at hb
    · have := (List.chain'_cons.mp hc).1
      simp only [List.head?] at hb
      injection hb with hb2
      rw [← hb2]
      exact this

theorem chain_last_end (l : List Region) :
    ∀ (r d : Region), List.Chain' regionAdj (r :: l) →
      regionEnd ((r :: l).getLastD d) = regionEnd r + (l.map Region.size).sum := by
  induction l with
  | nil => intro r d _; simp [regionEnd]
  | cons b t ih =>
    intro r d hc
    have h1 : regionAdj r b := (List.chain'_cons.mp hc).1
    have h2 := ih b r (List.chain'_cons.mp hc).2
    simp only [List.getLastD_cons] at h2 ⊢
    rw [h2]
    unfold regionAdj at h1
    unfold regionEnd at h1 ⊢
    simp only [List.map_cons, List.sum_cons]
    omega

theorem chain_end_le_last (l : List Region) :
    ∀ (r : Region), List.Chain' regionAdj (r :: l) →
    (∀ q ∈ l, 0 ≤ q.size) →
    ∀ q ∈ r :: l, regionEnd q ≤ regionEnd ((r :: l).getLastD ⟨0, 0⟩) := by
  induction l with
  | nil =>
    intro r _ _ q hq
    rcases List.mem_cons.mp hq with rfl | h2
    · simp [List.getLastD]
    · simp at h2
  | cons b t ih =>
    intro r hc hs q hq
    have h1 : regionAdj r b := (List.chain'_cons.mp hc).1
    have hb0 : 0 ≤ b.size := hs b (by simp)
    simp only [List.getLastD_cons]
    rcases List.mem_cons.mp hq with rfl | h2
    · have hble := ih b (List.chain'_cons.mp hc).2
        (fun x hx => hs x (List.mem_cons_of_mem _ hx)) b (by simp)
      simp only [List.getLastD_cons] at hble
      unfold regionAdj at h1
      unfold regionEnd at h1 hble ⊢
      omega
    · have hres := ih b (List.chain'_cons.mp hc).2
        (fun x hx => hs x (List.mem_cons_of_mem _ hx)) q h2
      simp only [List.getLastD_cons] at hres
      exact hres

theorem chain_cover (l : List Region) :
    ∀ (r : Region) (x : Int), List.Chain' regionAdj (r :: l) →
    (r.off : Int) ≤ x →
    x < regionEnd ((r :: l).getLastD ⟨0, 0⟩) →
    ∃ q ∈ r :: l, (q.off : Int) ≤ x ∧ x < regionEnd q := by
  induction l with
  | nil =>
    intro r x _ h1 h2
    refine ⟨r, by simp, h1, ?_⟩
    simpa [List.getLastD] using h2
  | cons b t ih =>
    intro r x hc h1 h2
    by_cases hx : x < regionEnd r
    · exact ⟨r, by simp, h1, hx⟩
    · have hadj : regionAdj r b := (List.chain'_cons.mp hc).1
      have h1' : (b.off : Int) ≤ x := by
        unfold regionAdj at hadj
        omega
      have h2' : x < regionEnd ((b :: t).getLastD ⟨0, 0⟩) := by
        simp only [List.getLastD_cons] at h2 ⊢
        exact h2
      obtain ⟨q, hqm, hq⟩ := ih b x (List.chain'_cons.mp hc).2 h1' h2'
      exact ⟨q, List.mem_cons_of_mem _ hqm, hq⟩

theorem regionsDisjointB_eq_true (l : List Region)
    (h : List.Pairwise (fun a b => regionEnd a ≤ (b.off : Int)) l) :
    regionsDisjointB l = true := by
  induction l with
  | nil => rfl
  | cons a t ih =>
    rw [regionsDisjointB, Bool.and_eq_true]
    refine ⟨?_, ih (List.pairwise_cons.mp h).2⟩
    rw [List.all_eq_true]
    intro q hq
    rw [decide_eq_true_eq]
    have h2 := (List.pairwise_cons.mp h).1 q hq
    unfold regionEnd at h2
    exact h2

theorem foldl_sectionStep_snd (buf : List Nat) (f : PFields) :
    ∀ (l : List Nat) (acc : List Region × Int),
      (l.foldl (sectionStep buf f) acc).2 = acc.2 +
        ((l.filterMap (fun i =>
          if readU32 buf (f.scnhdrOff + 40 * i + 16) = 0 then none
          else some (⟨readU32 buf (f.scnhdrOff + 40 * i + 20),
            (readU32 buf (f.scnhdrOff + 40 * i + 16) : Int)⟩ : Region))).map
              Region.size).sum := by
  intro l
  induction l with
  | nil => intro acc; simp
  | cons x xs ih =>
    intro acc
    simp only [List.foldl, List.filterMap_cons]
    by_cases hz : readU32 buf (f.scnhdrOff + 40 * x + 16) = 0
    · rw [show sectionStep buf f acc x = acc from by unfold sectionStep; rw [if_pos hz]]
      rw [ih]
      simp [hz]
    · rw [show sectionStep buf f acc x =
          (acc.1 ++ [⟨readU32 buf (f.scnhdrOff + 40 * x + 20),
            (readU32 buf (f.scnhdrOff + 40 * x + 16) : Int)⟩], acc.2 +
              readU32 buf (f.scnhdrOff + 40 * x + 16)) from
        by unfold sectionStep; rw [if_neg hz]]
      rw [ih]
      simp [hz]
      ring

theorem buildRegions_snd_eq (buf : List Nat) (f : PFields) :
    (buildRegions buf f).2 = (f.headerSize : Int) +
      ((sectionRegions buf f).map Region.size).sum := by
  unfold buildRegions sectionRegions
  rw [foldl_sectionStep_snd]
  have hinit : (12 : Int) + ((fixedRegions f).map Region.size).sum = (f.headerSize : Int) := by
    simp [fixedRegions]
    ring
  rw [hinit]

theorem secRegions_sum_nonneg (buf : List Nat) (f : PFields)
    (hsizes : ∀ r ∈ (buildRegions buf f).1, 0 ≤ r.size) :
    0 ≤ ((sectionRegions buf f).map Region.size).sum := by
  apply List.sum_nonneg
  intro x hx
  rw [List.mem_map] at hx
  obtain ⟨r, hr, rfl⟩ := hx
  exact hsizes r (by rw [buildRegions_fst]; exact List.mem_append_right _ hr)

theorem built_covers (buf : List Nat) (f : PFields)
    (hgeo : f.dataDirSigOff = f.checksumOff + 64 ∨ f.dataDirSigOff = f.checksumOff + 80)
    (hchain : List.Chain' regionAdj ((buildRegions buf f).1.drop 2))
    (hsizes : ∀ r ∈ (buildRegions buf f).1, 0 ≤ r.size) :
    ∀ x : Nat, (x : Int) < (buildRegions buf f).2 →
      (∃ q ∈ (buildRegions buf f).1, (q.off : Int) ≤ (x : Int) ∧ (x : Int) < regionEnd q) ∨
      (f.checksumOff ≤ x ∧ x < f.checksumOff + 4) ∨
      (f.dataDirSigOff ≤ x ∧ x < f.dataDirSigOff + 8) := by
  intro x hx
  have hfst := buildRegions_fst buf f
  have hdrop : (buildRegions buf f).1.drop 2 =
      (⟨f.dataDirSigOff + 8, (f.headerSize : Int) - ((f.dataDirSigOff : Int) + 8)⟩ : Region) ::
        sectionRegions buf f := by
    rw [hfst]
    rfl
  rw [hdrop] at hchain
  have hr2size : (0 : Int) ≤ (f.headerSize : Int) - ((f.dataDirSigOff : Int) + 8) :=
    hsizes ⟨f.dataDirSigOff + 8, (f.headerSize : Int) - ((f.dataDirSigOff : Int) + 8)⟩
      (by rw [hfst]; simp [fixedRegions])
  have hlast := chain_last_end (sectionRegions buf f)
    ⟨f.dataDirSigOff + 8, (f.headerSize : Int) - ((f.dataDirSigOff : Int) + 8)⟩
    ⟨0, 0⟩ hchain
  have hr2end : regionEnd
      (⟨f.dataDirSigOff + 8, (f.headerSize : Int) - ((f.dataDirSigOff : Int) + 8)⟩ : Region) =
      (f.headerSize : Int) := by
    unfold regionEnd
    push_cast
    ring
  have hBlast : regionEnd
      (((⟨f.dataDirSigOff + 8, (f.headerSize : Int) - ((f.dataDirSigOff : Int) + 8)⟩ : Region) ::
        sectionRegions buf f).getLastD ⟨0, 0⟩) = (buildRegions buf f).2 := by
    rw [hlast, hr2end, buildRegions_snd_eq]
  by_cases h0 : (x : Int) < (f.checksumOff : Int)
  · refine Or.inl ⟨⟨0, (f.checksumOff : Int)⟩, ?_, by simp, ?_⟩
    · rw [hfst]
      simp [fixedRegions]
    · unfold regionEnd
      simpa using h0
  · by_cases h1 : x < f.checksumOff + 4
    · exact Or.inr (Or.inl ⟨by omega, h1⟩)
    · by_cases h2 : (x : Int) < (f.dataDirSigOff : Int)
      · refine Or.inl ⟨⟨f.checksumOff + 4,
          (f.dataDirSigOff : Int) - ((f.checksumOff : Int) + 4)⟩, ?_, ?_, ?_⟩
        · rw [hfst]
          simp [fixedRegions]
        · push_cast
          omega
        · unfold regionEnd
          push_cast
          omega
      · by_cases h3 : x < f.dataDirSigOff + 8
        · refine Or.inr (Or.inr ⟨by omega, h3⟩)
        · have hcov := chain_cover (sectionRegions buf f)
            ⟨f.dataDirSigOff + 8, (f.headerSize : Int) - ((f.dataDirSigOff : Int) + 8)⟩
            (x : Int) hchain (by push_cast; omega) (by rw [hBlast]; exact hx)
          obtain ⟨q, hqm, hq1, hq2⟩ := hcov
          refine Or.inl ⟨q, ?_, hq1, hq2⟩
          rcases List.mem_cons.mp hqm with rfl | hqs
          · rw [hfst]
            simp [fixedRegions]
          · rw [hfst]
            exact List.mem_append_right _ hqs

/-- C1 (amended): for accepted images whose section regions are contiguous
as built (each begins exactly at the previous region's end — the gap
warning never fires) and whose region sizes are non-negative, the final
region list of `image_find_regions` satisfies
`regions[i].offset + regions[i].size ≤ regions[j].offset` for `i < j`;
together with the 4-byte checksum field and the 8-byte security directory
entry the regions cover every byte below `file_size − cert_table_size`
(below the running byte count `B` when no endjunk region is appended); and
when `B + cert_table_size < file_size` the appended endjunk region is
exactly `[B, file_size − cert_table_size)`.  (The unconditional claim is
refuted by `c1_counterexample`: a section-table gap breaks both the
ordering formula and coverage, and the claim's trigger `sum(region sizes)`
is actually the byte counter `B`, which also counts the 12 skipped bytes.) -/
theorem c1_regions_amended (buf : List Nat) (f : PFields) (sb : Option (List Nat))
    (h : image_pecoff_parse buf = some (f, sb))
    (hchain : List.Chain' regionAdj ((buildRegions buf f).1.drop 2))
    (hsizes : ∀ r ∈ (buildRegions buf f).1, 0 ≤ r.size) :
    regionsDisjointB (image_find_regions buf f).1 = true ∧
    coversUpToB f.checksumOff f.dataDirSigOff (image_find_regions buf f).1
      (if (buildRegions buf f).2 + (f.certTableSize : Int) < (buf.length : Int)
       then buf.length - f.certTableSize
       else (buildRegions buf f).2.toNat) = true ∧
    ((buildRegions buf f).2 + (f.certTableSize : Int) < (buf.length : Int) →
      (image_find_regions buf f).1 = (buildRegions buf f).1 ++
        [⟨(buildRegions buf f).2.toNat,
          (buf.length : Int) - (buildRegions buf f).2 - (f.certTableSize : Int)⟩]) := by
  have hpf := image_pecoff_parse_fst buf f sb h
  have hgeo' : f.checksumOff + 4 ≤ f.dataDirSigOff ∧
      f.dataDirSigOff ≤ f.checksumOff + 80 := by
    rcases parseFields_dir_geometry buf f hpf with hg | hg <;> omega
  have hfst := buildRegions_fst buf f
  have hbuiltlist : (buildRegions buf f).1 =
      (⟨0, (f.checksumOff : Int)⟩ : Region) ::
      (⟨f.checksumOff + 4, (f.dataDirSigOff : Int) - ((f.checksumOff : Int) + 4)⟩ : Region) ::
      (⟨f.dataDirSigOff + 8, (f.headerSize : Int) - ((f.dataDirSigOff : Int) + 8)⟩ : Region) ::
      sectionRegions buf f := by
    rw [hfst]
    rfl
  have hdrop : (buildRegions buf f).1.drop 2 =
      (⟨f.dataDirSigOff + 8, (f.headerSize : Int) - ((f.dataDirSigOff : Int) + 8)⟩ : Region) ::
        sectionRegions buf f := by
    rw [hfst]
    rfl
  have hchain2 := hchain
  rw [hdrop] at hchain2
  have hr2size : (0 : Int) ≤ (f.headerSize : Int) - ((f.dataDirSigOff : Int) + 8) :=
    hsizes ⟨f.dataDirSigOff + 8, (f.headerSize : Int) - ((f.dataDirSigOff : Int) + 8)⟩
      (by rw [hbuiltlist]; simp)
  have hchainLE : List.Chain' (fun a b => regionEnd a ≤ (b.off : Int))
      (buildRegions buf f).1 := by
    rw [hbuiltlist]
    refine List.chain'_cons.mpr ⟨?_, List.chain'_cons.mpr ⟨?_, ?_⟩⟩
    · unfold regionEnd
      push_cast
      omega
    · unfold regionEnd
      push_cast
      omega
    · exact List.Chain'.imp (fun a b hab => le_of_eq hab) hchain2
  have hpair := chain_pairwise_endLE _ hchainLE hsizes
  have hsorted : List.Pairwise regionLE (buildRegions buf f).1 := by
    refine List.Pairwise.imp_of_mem ?_ hpair
    intro a b ha hb hab
    have ha0 := hsizes a ha
    unfold regionEnd at hab
    unfold regionLE
    omega
  have hfix : List.insertionSort regionLE (buildRegions buf f).1 = (buildRegions buf f).1 :=
    List.Sorted.insertionSort_eq hsorted
  have hr2end : regionEnd
      (⟨f.dataDirSigOff + 8, (f.headerSize : Int) - ((f.dataDirSigOff : Int) + 8)⟩ : Region) =
      (f.headerSize : Int) := by
    unfold regionEnd
    push_cast
    ring
  have hBeq : regionEnd
      (((⟨f.dataDirSigOff + 8, (f.headerSize : Int) - ((f.dataDirSigOff : Int) + 8)⟩ : Region) ::
        sectionRegions buf f).getLastD ⟨0, 0⟩) = (buildRegions buf f).2 := by
    rw [chain_last_end (sectionRegions buf f) _ _ hchain2, hr2end, buildRegions_snd_eq]
  have hB_ge_hdr : (f.headerSize : Int) ≤ (buildRegions buf f).2 := by
    rw [buildRegions_snd_eq]
    have := secRegions_sum_nonneg buf f hsizes
    omega
  have hend_le_B : ∀ q ∈ (buildRegions buf f).1,
      regionEnd q ≤ (buildRegions buf f).2 := by
    have hsec_sizes : ∀ q ∈ sectionRegions buf f, 0 ≤ q.size := by
      intro q hq
      exact hsizes q (by rw [hbuiltlist]; simp [hq])
    have hendlast := chain_end_le_last (sectionRegions buf f)
      ⟨f.dataDirSigOff + 8, (f.headerSize : Int) - ((f.dataDirSigOff : Int) + 8)⟩
      hchain2 hsec_sizes
    intro q hq
    rw [hbuiltlist] at hq
    rcases List.mem_cons.mp hq with rfl | hq2
    · unfold regionEnd
      push_cast
      omega
    · rcases List.mem_cons.mp hq2 with rfl | hq3
      · unfold regionEnd
        push_cast
        omega
      · have hle := hendlast q hq3
        rw [hBeq] at hle
        exact hle
  have hB0 : 0 ≤ (buildRegions buf f).2 := buildRegions_snd_nonneg buf f
  have hregs : (image_find_regions buf f).1 =
      (if (buildRegions buf f).2 + (f.certTableSize : Int) < (buf.length : Int) then
        (buildRegions buf f).1 ++ [⟨(buildRegions buf f).2.toNat,
          (buf.length : Int) - (buildRegions buf f).2 - (f.certTableSize : Int)⟩]
      else (buildRegions buf f).1) := by
    unfold image_find_regions
    simp only
    split
    · rw [hfix]
    · exact hfix
  by_cases hcond : (buildRegions buf f).2 + (f.certTableSize : Int) < (buf.length : Int)
  · have hregs2 : (image_find_regions buf f).1 = (buildRegions buf f).1 ++
        [⟨(buildRegions buf f).2.toNat,
          (buf.length : Int) - (buildRegions buf f).2 - (f.certTableSize : Int)⟩] := by
      rw [hregs, if_pos hcond]
    refine ⟨?_, ?_, fun _ => hregs2⟩
    · rw [hregs2]
      apply regionsDisjointB_eq_true
      rw [List.pairwise_append]
      refine ⟨hpair, List.pairwise_singleton _ _, ?_⟩
      intro a ha b hb
      rw [List.mem_singleton] at hb
      subst hb
      have hle := hend_le_B a ha
      show regionEnd a ≤ ((((buildRegions buf f).2).toNat : Nat) : Int)
      rw [Int.toNat_of_nonneg hB0]
      exact hle
    · rw [if_pos hcond, hregs2]
      rw [coversUpToB, List.all_eq_true]
      intro x hxm
      rw [List.mem_range] at hxm
      simp only [coveredB, Bool.or_eq_true, List.any_eq_true, Bool.and_eq_true,
        decide_eq_true_eq]
      by_cases hxB : (x : Int) < (buildRegions buf f).2
      · rcases built_covers buf f (parseFields_dir_geometry buf f hpf) hchain hsizes x hxB
          with ⟨q, hqm, hq1, hq2⟩ | hf1 | hf2
        · refine Or.inl (Or.inl ⟨q, List.mem_append_left _ hqm, hq1, ?_⟩)
          unfold regionEnd at hq2
          exact hq2
        · exact Or.inl (Or.inr hf1)
        · exact Or.inr hf2
      · refine Or.inl (Or.inl ⟨⟨(buildRegions buf f).2.toNat,
          (buf.length : Int) - (buildRegions buf f).2 - (f.certTableSize : Int)⟩,
          List.mem_append_right _ (by simp), ?_, ?_⟩)
        · simp only
          omega
        · simp only
          omega
  · refine ⟨?_, ?_, fun hcon => absurd hcon hcond⟩
    · rw [hregs, if_neg hcond]
      exact regionsDisjointB_eq_true _ hpair
    · rw [if_neg hcond, hregs, if_neg hcond]
      rw [coversUpToB, List.all_eq_true]
      intro x hxm
      rw [List.mem_range] at hxm
      simp only [coveredB, Bool.or_eq_true, List.any_eq_true, Bool.and_eq_true,
        decide_eq_true_eq]
      have hxB : (x : Int) < (buildRegions buf f).2 := by omega
      rcases built_covers buf f (parseFields_dir_geometry buf f hpf) hchain hsizes x hxB
        with ⟨q, hqm, hq1, hq2⟩ | hf1 | hf2
      · refine Or.inl (Or.inl ⟨q, hqm, hq1, ?_⟩)
        unfold regionEnd at hq2
        exact hq2
      · exact Or.inl (Or.inr hf1)
      · exact Or.inr hf2


set_option maxRecDepth 100000 in
/-- C1 witness: the amended theorem applied to a concrete gap-free image
(single section starting exactly at the end of the headers). -/
theorem c1_witness :
    regionsDisjointB (image_find_regions wC1 wC1f).1 = true ∧
    coversUpToB wC1f.checksumOff wC1f.dataDirSigOff (image_find_regions wC1 wC1f).1
      (if (buildRegions wC1 wC1f).2 + (wC1f.certTableSize : Int) < (wC1.length : Int)
       then wC1.length - wC1f.certTableSize
       else (buildRegions wC1 wC1f).2.toNat) = true ∧
    ((buildRegions wC1 wC1f).2 + (wC1f.certTableSize : Int) < (wC1.length : Int) →
      (image_find_regions wC1 wC1f).1 = (buildRegions wC1 wC1f).1 ++
        [⟨(buildRegions wC1 wC1f).2.toNat,
          (wC1.length : Int) - (buildRegions wC1 wC1f).2 - (wC1f.certTableSize : Int)⟩]) :=
  c1_regions_amended wC1 wC1f (sigbufOf wC1 wC1f) rfl
    (by rw [show (buildRegions wC1 wC1f).1.drop 2 =
          [(⟨224, 288⟩ : Region), (⟨512, 256⟩ : Region)] from by rfl]
        exact List.chain'_pair.mpr (by decide))
    (by decide)
